import Mathlib

/-!
Verification of the YTLLM text-processing and embedding pipeline
(`src/processing/text_processor.py`, `src/processing/embedding.py`).

Texts are modelled as `List Char`; machine floats are modelled over `ℚ`
(exact arithmetic); the file-system embedding cache is modelled as an
association list keyed by the MD5 hex digest, with the digest function a
parameter; network backends are parameters returning `Option` results
(`none` = request exception).  Python's `while` loop in `chunk_text` is
modelled with explicit fuel, `none` meaning the fuel ran out.
-/

namespace YTLLM

/-- Python regex `\s` / `str.strip` whitespace, restricted to the ASCII
whitespace characters (space, tab, newline, carriage return, vertical
tab, form feed).  The model covers the ASCII fragment of Python's
Unicode whitespace class. -/
def sp (c : Char) : Bool :=
  c = ' ' || c = '\t' || c = '\n' || c = '\r' || c = Char.ofNat 11 || c = Char.ofNat 12

/-- Python regex `\w` (word character), ASCII fragment: letters, digits,
underscore. -/
def wordChar (c : Char) : Bool :=
  c.isAlphanum || c = '_'

/-- The allow-list of `clean_text`'s second substitution
`re.sub(r'[^\w\s\.,;:!?\'\"()\[\]\{\}]', '', text)`: word characters,
whitespace, and the listed punctuation, quote and bracket characters
(including the two curly braces, written by code point) are kept,
everything else is removed. -/
def allowedChar (c : Char) : Bool :=
  wordChar c || sp c ||
    c = '.' || c = ',' || c = ';' || c = ':' || c = '!' || c = '?' ||
    c = '\'' || c = '"' || c = '(' || c = ')' || c = '[' || c = ']' ||
    c = Char.ofNat 123 || c = Char.ofNat 125

/-- Model of `re.sub(r'\s+', ' ', text)`: each maximal run of whitespace
characters is replaced by a single space.  A whitespace character
followed by another whitespace character is dropped; the last character
of a run is emitted as `' '`. -/
def collapse : List Char → List Char
  | [] => []
  | [c] => if sp c then [' '] else [c]
  | c :: d :: t =>
    if sp c && sp d then collapse (d :: t)
    else (if sp c then ' ' else c) :: collapse (d :: t)

/-- Helper for `rstrip`: prepend a character to an already
right-stripped tail; a whitespace character before an empty tail is
itself stripped. -/
def consR (c : Char) (r : List Char) : List Char :=
  match r with
  | [] => if sp c then [] else [c]
  | _ => c :: r

/-- Removal of the trailing whitespace run of Python `str.strip`. -/
def rstrip : List Char → List Char
  | [] => []
  | c :: t => consR c (rstrip t)

/-- Model of Python `str.strip`: drop leading and trailing whitespace. -/
def strip (l : List Char) : List Char :=
  rstrip (l.dropWhile sp)

/-- Model of `clean_text` (text_processor.py lines 11-27): collapse
whitespace runs to single spaces, remove characters outside the
allow-list, then strip. -/
def clean_text (l : List Char) : List Char :=
  strip ((collapse l).filter allowedChar)

/-- Head-is-whitespace test, used to reason about `collapse`. -/
def headSp : List Char → Bool
  | [] => false
  | c :: _ => sp c

/-- No two adjacent whitespace characters occur in the list. -/
def noAdj : List Char → Bool
  | [] => true
  | c :: t => (!(sp c && headSp t)) && noAdj t

/-- Every whitespace character in the list is a plain space. -/
def wsNorm (l : List Char) : Prop :=
  ∀ c ∈ l, sp c = true → c = ' '

/-- Every character of the list passes the allow-list. -/
def allAllowed (l : List Char) : Prop :=
  ∀ c ∈ l, allowedChar c = true

/-- Does `pat` occur in `text` at absolute position `i`. -/
def matchAt (text pat : List Char) (i : ℕ) : Bool :=
  decide ((text.drop i).take pat.length = pat)

/-- Model of Python `text.rfind(pat, a, b)`: the largest index `i` with
`a ≤ i`, `i + len(pat) ≤ min(b, len(text))` and an occurrence of `pat`
at `i`; `none` models the return value `-1`. -/
def rfind (text pat : List Char) (a b : ℕ) : Option ℕ :=
  ((List.range (min b text.length + 1)).filter
    (fun i => a ≤ i && i + pat.length ≤ min b text.length && matchAt text pat i)).max?

/-- One boundary search of `chunk_text` (lines 60-68): prefer the last
sentence boundary `". "` in the window (cut after the period), else the
last space, else the raw window end. -/
def chunkEnd (text : List Char) (start e0 : ℕ) : ℕ :=
  match rfind text ['.', ' '] start e0 with
  | some se => se + 1
  | none =>
    match rfind text [' '] start e0 with
    | some sc => sc
    | none => e0

/-- The `while start < len(text)` loop of `chunk_text` (lines 51-75),
with explicit fuel; `none` means the loop did not finish within the
fuel.  Middle chunks are emitted stripped, the final remainder
`text[start:]` is emitted verbatim, and the next start is
`end - overlap if end > overlap else end`. -/
def chunkLoop (text : List Char) (cs ov : ℕ) : ℕ → ℕ → List (List Char) → Option (List (List Char))
  | 0, _, _ => none
  | fuel + 1, start, acc =>
    if start < text.length then
      if text.length ≤ start + cs then some (acc ++ [text.drop start])
      else
        let e1 := chunkEnd text start (start + cs)
        chunkLoop text cs ov fuel (if ov < e1 then e1 - ov else e1)
          (acc ++ [strip ((text.take e1).drop start)])
    else some acc

/-- Model of `chunk_text` (text_processor.py lines 29-76).  The Python
defaults are `chunk_size=1000, overlap=200`. -/
def chunk_text (fuel : ℕ) (text : List Char) (cs ov : ℕ) : Option (List (List Char)) :=
  if text = [] then some []
  else if text.length ≤ cs then some [text]
  else chunkLoop text cs ov fuel 0 []

/-- A subtitle segment: its text and its time span in seconds.  Times
(Python floats) are modelled over `ℚ`. -/
structure Subtitle where
  text : List Char
  start_time : ℚ
  end_time : ℚ
deriving DecidableEq

/-- An entry of the `char_positions` table (text_processor.py lines
101-111): the character span of one subtitle inside the concatenated
text, plus its time span. -/
structure SubSpan where
  startPos : ℕ
  endPos : ℕ
  start_time : ℚ
  end_time : ℚ
deriving DecidableEq

/-- A produced chunk record (text_processor.py lines 140-146).  The
`vector_id` field (a fresh random UUID) is not modelled. -/
structure Chunk where
  text : List Char
  chunk_index : ℕ
  start_time : ℚ
  end_time : ℚ
deriving DecidableEq

/-- The `char_positions` accumulation: each subtitle occupies
`[cur, cur + len(text))` and the cursor then advances by the text length
plus one for the joining space. -/
def charPositions : List Subtitle → ℕ → List SubSpan
  | [], _ => []
  | s :: rest, cur =>
    ⟨cur, cur + s.text.length, s.start_time, s.end_time⟩ ::
      charPositions rest (cur + s.text.length + 1)

/-- Model of Python `text.find(pat, start)`: the smallest index `i ≥ start`
carrying an occurrence of `pat`; `none` models the return value `-1`. -/
def findFrom (text pat : List Char) (start : ℕ) : Option ℕ :=
  ((List.range (text.length + 1)).filter
    (fun i => start ≤ i && i + pat.length ≤ text.length && matchAt text pat i)).head?

/-- The chunk's time range (text_processor.py lines 125-138): the
subtitle spans overlapping the chunk's character span `[s, e]` under the
inclusive test `sub.start <= chunk_end and sub.end >= chunk_start`; the
range is (min start_time, max end_time) over them, with the fallback
(first subtitle's start_time, last subtitle's end_time) when none
overlap, and (0, 0) only when there are no subtitles at all. -/
def chunkTimes (positions : List SubSpan) (subs : List Subtitle) (s e : ℕ) : ℚ × ℚ :=
  match positions.filter (fun p => p.startPos ≤ e && p.endPos ≥ s) with
  | [] =>
    ((match subs with
      | [] => 0
      | s0 :: _ => s0.start_time),
     (match subs.getLast? with
      | none => 0
      | some sl => sl.end_time))
  | o :: os =>
    ((os.map (fun p => p.start_time)).foldl min o.start_time,
     (os.map (fun p => p.end_time)).foldl max o.end_time)

/-- The per-chunk loop of `process_video_subtitles` (lines 117-146):
locate each chunk in the concatenated text from the running cursor
(falling back to the cursor itself), compute its span and time range and
emit the chunk record. -/
def alignChunks (positions : List SubSpan) (total : List Char) (subs : List Subtitle) :
    List (List Char) → ℕ → ℕ → List Chunk
  | [], _, _ => []
  | c :: rest, i, cur =>
    let s := (findFrom total c cur).getD cur
    let e := s + c.length
    ⟨c, i, (chunkTimes positions subs s e).1, (chunkTimes positions subs s e).2⟩ ::
      alignChunks positions total subs rest (i + 1) e

/-- Model of `process_video_subtitles` (text_processor.py lines 78-148):
join the subtitle texts with single spaces, clean, chunk with the
default sizes (1000, 200), and align each chunk to a time range. -/
def process_video_subtitles (fuel : ℕ) (subs : List Subtitle) : Option (List Chunk) :=
  match chunk_text fuel
      (clean_text (List.intercalate [' '] (subs.map (fun s => s.text)))) 1000 200 with
  | none => none
  | some tcs =>
    some (alignChunks (charPositions subs 0)
      (List.intercalate [' '] (subs.map (fun s => s.text))) subs tcs 0 0)

/-- The character spans the aligner assigns to the chunks, one per
chunk: each chunk is located in the concatenated text by searching
forward from the previous chunk's end (spec 4.3's find-from-cursor
rule, falling back to the running cursor when not found), its span
running from that position to it plus the chunk's length, and the
cursor advancing to the span's end. -/
def chunkSpans (total : List Char) : List (List Char) → ℕ → List (ℕ × ℕ)
  | [], _ => []
  | c :: rest, cur =>
    ((findFrom total c cur).getD cur, (findFrom total c cur).getD cur + c.length) ::
      chunkSpans total rest ((findFrom total c cur).getD cur + c.length)

/-- Spec-side statement of the time-range rule of spec 4.3 for one
chunk at its character span `[s, e]`: over the subtitle spans passing
the inclusive-overlap test `sub.start <= e and sub.end >= s`, the
chunk's time range is the minimum start time and maximum end time
(expressed through `List.min?`/`List.max?`), and when no span overlaps
it falls back to the first subtitle's start time and the last
subtitle's end time — never an unset value while subtitles exist. -/
def timeRangeAt (positions : List SubSpan) (subs : List Subtitle) (s e : ℕ)
    (ch : Chunk) : Prop :=
  (positions.filter (fun p => p.startPos ≤ e && p.endPos ≥ s) ≠ [] ∧
    ((positions.filter (fun p => p.startPos ≤ e && p.endPos ≥ s)).map
      (fun p => p.start_time)).min? = some ch.start_time ∧
    ((positions.filter (fun p => p.startPos ≤ e && p.endPos ≥ s)).map
      (fun p => p.end_time)).max? = some ch.end_time) ∨
  (positions.filter (fun p => p.startPos ≤ e && p.endPos ≥ s) = [] ∧
    ∃ s0 sl, subs.head? = some s0 ∧ subs.getLast? = some sl ∧
      ch.start_time = s0.start_time ∧ ch.end_time = sl.end_time)

/-- The configured embedding dimension (embedding.py line 19). -/
def EMBEDDING_VECTOR_SIZE : ℕ := 1536

/-- Lookup in the file-system cache directory, modelled as an
association list keyed by the digest string. -/
def cacheLookup (cache : List (String × List ℚ)) (k : String) : Option (List ℚ) :=
  match cache with
  | [] => none
  | (k', v) :: rest => if k' = k then some v else cacheLookup rest k

/-- Writing a cache file: overwrite the entry for the key if present,
otherwise add it. -/
def cacheInsert (cache : List (String × List ℚ)) (k : String) (v : List ℚ) :
    List (String × List ℚ) :=
  match cache with
  | [] => [(k, v)]
  | (k', v') :: rest =>
    if k' = k then (k, v) :: rest else (k', v') :: cacheInsert rest k v

/-- Parameters of the embedding pipeline model: the MD5 hex digest of a
text, the deterministic dummy embedding, the presence of the two API
keys, and the observable behaviour of the two remote backends
(`openaiApi b = none` and `deepseekOk t = false` model a request
exception for that call). -/
structure EmbEnv where
  md5hex : String → String
  dummyEmb : String → List ℚ
  deepseekKey : Bool
  openaiKey : Bool
  openaiApi : List String → Option (List (List ℚ))
  deepseekOk : String → Bool

/-- The state threaded through the pipeline: the cache contents plus the
model's observable effects — which texts were sent to each remote
backend and which texts had a dummy embedding computed. -/
structure EmbState where
  cache : List (String × List ℚ)
  openaiLog : List String
  deepseekLog : List String
  dummyLog : List String

/-- Model of `get_cached_embedding` (embedding.py lines 47-73): look up
the file keyed by the MD5 of the text; a stored vector whose length is
not the configured size is treated as absent. -/
def get_cached_embedding (env : EmbEnv) (cache : List (String × List ℚ))
    (text : String) : Option (List ℚ) :=
  match cacheLookup cache (env.md5hex text) with
  | none => none
  | some emb => if emb.length ≠ EMBEDDING_VECTOR_SIZE then none else some emb

/-- Model of `save_embedding_to_cache` (embedding.py lines 75-91). -/
def save_embedding_to_cache (env : EmbEnv) (cache : List (String × List ℚ))
    (text : String) (embedding : List ℚ) : List (String × List ℚ) :=
  cacheInsert cache (env.md5hex text) embedding

/-- Python `range(0, len(l), n)` batching, with the recursion bounded
structurally by the list length (for `n ≥ 1` the bound is never hit). -/
def batchesGo (fuel n : ℕ) (l : List α) : List (List α) :=
  match fuel, l with
  | 0, _ => []
  | _, [] => []
  | fuel + 1, l => l.take n :: batchesGo fuel n (l.drop n)

/-- Split a list into consecutive batches of `n` (embedding.py lines
112-113 and 183-184). -/
def batches (n : ℕ) (l : List α) : List (List α) :=
  batchesGo l.length n l

/-- The batch loop of `generate_openai_embeddings` (lines 112-138): send
each batch of 20, concatenating the returned vectors; a failing request
raises out of the whole function (discarding earlier batches), so the
result is `none`.  The cache is never touched; the log records the
texts sent. -/
def openaiLoop (env : EmbEnv) :
    List (List String) → EmbState → List (List ℚ) →
      Option (List (List ℚ)) × EmbState
  | [], st, acc => (some acc, st)
  | b :: rest, st, acc =>
    match env.openaiApi b with
    | none => (none, { st with openaiLog := st.openaiLog ++ b })
    | some embs =>
      openaiLoop env rest { st with openaiLog := st.openaiLog ++ b } (acc ++ embs)

/-- Model of `generate_openai_embeddings` (embedding.py lines 93-144):
`None` when the key is unset, otherwise the batched API calls. -/
def generate_openai_embeddings (env : EmbEnv) (st : EmbState) (texts : List String) :
    Option (List (List ℚ)) × EmbState :=
  if env.openaiKey then openaiLoop env (batches 20 texts) st []
  else (none, st)

/-- The per-batch cache partition of `generate_embeddings` (lines
186-197): cached texts are appended to `batch_embeddings` in hit order,
uncached texts and their batch indices are collected for the API.
Python's truthiness test `if cached_embedding:` equals `is not None`
here because a cache hit always has the (positive) configured length. -/
def partitionCached (env : EmbEnv) (cache : List (String × List ℚ)) :
    List String → ℕ → List (Option (List ℚ)) × List String × List ℕ
  | [], _ => ([], [], [])
  | t :: rest, j =>
    match get_cached_embedding env cache t with
    | some v =>
      ((partitionCached env cache rest (j + 1)).1.cons (some v),
        (partitionCached env cache rest (j + 1)).2.1,
        (partitionCached env cache rest (j + 1)).2.2)
    | none =>
      ((partitionCached env cache rest (j + 1)).1,
        (partitionCached env cache rest (j + 1)).2.1.cons t,
        (partitionCached env cache rest (j + 1)).2.2.cons j)

/-- The per-text DeepSeek chat calls (lines 204-228): each call is
logged; a failing call raises (aborting the whole try block); a
successful call contributes `generate_dummy_embedding(text)` since the
chat response carries no usable embedding (line 227). -/
def deepseekCalls (env : EmbEnv) :
    List String → EmbState → List (List ℚ) →
      Option (List (List ℚ)) × EmbState
  | [], st, acc => (some acc, st)
  | t :: rest, st, acc =>
    if env.deepseekOk t then
      deepseekCalls env rest { st with deepseekLog := st.deepseekLog ++ [t] }
        (acc ++ [env.dummyEmb t])
    else (none, { st with deepseekLog := st.deepseekLog ++ [t] })

/-- The `while len(batch_embeddings) <= idx: append(None)` padding
followed by `batch_embeddings[idx] = emb` (lines 236-238). -/
def setPad (l : List (Option (List ℚ))) (idx : ℕ) (v : List ℚ) :
    List (Option (List ℚ)) :=
  (l ++ List.replicate (idx + 1 - l.length) none).set idx (some v)

/-- The merge of cached and freshly computed embeddings (lines 234-238):
write each computed vector at its recorded batch index, padding with
`None`.  Cached vectors were appended at compacted positions, so this
overwrites them when an uncached text precedes a cached one. -/
def mergeEmbeddings :
    List ℕ → List (List ℚ) → List (Option (List ℚ)) → List (Option (List ℚ))
  | idx :: is, v :: vs, be => mergeEmbeddings is vs (setPad be idx v)
  | _, _, be => be

/-- The post-call cache population (lines 230-232): save each computed
embedding under its text, in order. -/
def saveZip (env : EmbEnv) :
    List String → List (List ℚ) → List (String × List ℚ) → List (String × List ℚ)
  | t :: ts, v :: vs, cache => saveZip env ts vs (save_embedding_to_cache env cache t v)
  | _, _, cache => cache

/-- The DeepSeek batch loop of `generate_embeddings` (lines 183-242):
batches of 5; per batch, partition on the cache, call the API for the
misses, save the results, merge, and extend the running list; an
exception aborts the whole loop (`none`), keeping the state reached so
far. -/
def deepseekBatches (env : EmbEnv) :
    List (List String) → EmbState → List (Option (List ℚ)) →
      Option (List (Option (List ℚ))) × EmbState
  | [], st, acc => (some acc, st)
  | b :: rest, st, acc =>
    if (partitionCached env st.cache b 0).2.1.isEmpty then
      deepseekBatches env rest st (acc ++ (partitionCached env st.cache b 0).1)
    else
      match deepseekCalls env (partitionCached env st.cache b 0).2.1 st [] with
      | (none, st') => (none, st')
      | (some apiEmbs, st') =>
        deepseekBatches env rest
          { st' with
              cache := saveZip env (partitionCached env st.cache b 0).2.1 apiEmbs st'.cache }
          (acc ++ mergeEmbeddings (partitionCached env st.cache b 0).2.2 apiEmbs
            (partitionCached env st.cache b 0).1)

/-- The dummy fallback path of `generate_embeddings` (lines 257-271):
per text, consult the cache first; on a miss compute the deterministic
dummy embedding and save it before moving on. -/
def dummyPath (env : EmbEnv) :
    List String → EmbState → List (Option (List ℚ)) →
      List (Option (List ℚ)) × EmbState
  | [], st, acc => (acc, st)
  | t :: rest, st, acc =>
    match get_cached_embedding env st.cache t with
    | some v => dummyPath env rest st (acc ++ [some v])
    | none =>
      dummyPath env rest
        { st with
            cache := save_embedding_to_cache env st.cache t (env.dummyEmb t),
            dummyLog := st.dummyLog ++ [t] }
        (acc ++ [some (env.dummyEmb t)])

/-- Model of `generate_embeddings` (embedding.py lines 146-271).
Backend order: the DeepSeek path when its key is set, the OpenAI path
on configuration absence or DeepSeek failure, the dummy path last.
`if openai_embeddings:` is Python truthiness, false for both `None` and
the empty list.  The result entries are optional because the DeepSeek
merge can leave literal `None` padding in the returned list. -/
def generate_embeddings (env : EmbEnv) (st : EmbState) (texts : List String) :
    List (Option (List ℚ)) × EmbState :=
  if texts = [] then ([], st)
  else if env.deepseekKey = false then
    match generate_openai_embeddings env st texts with
    | (some l, st') =>
      if l = [] then dummyPath env texts st' [] else (l.map some, st')
    | (none, st') => dummyPath env texts st' []
  else
    match deepseekBatches env (batches 5 texts) st [] with
    | (some embs, st') => (embs, st')
    | (none, st') =>
      match generate_openai_embeddings env st' texts with
      | (some l, st'') =>
        if l = [] then dummyPath env texts st'' [] else (l.map some, st'')
      | (none, st'') => dummyPath env texts st'' []

/-- A chunk record entering `store_embeddings`: its text, the attached
embedding (set by the call) and the vector id it rewrites. -/
structure SChunk where
  text : String
  embedding : Option (List ℚ)
  vector_id : String
deriving DecidableEq

/-- Model of `store_embeddings` (embedding.py lines 273-297): raise
(modelled as `.error`) exactly on a chunk/embedding count mismatch;
otherwise pair chunk i with embedding i, substituting the dummy
embedding when the vector's length is not the configured size, and set
`vector_id` to "vec_" plus the first 16 hex digits of the MD5 of the
embedding's string form (`md5OfVec` abstracts `md5(str(embedding))`). -/
def store_embeddings (env : EmbEnv) (md5OfVec : List ℚ → String)
    (chunks : List SChunk) (embeddings : List (List ℚ)) :
    Except String (List SChunk) :=
  if chunks.length ≠ embeddings.length then
    Except.error "Number of chunks does not match number of embeddings"
  else
    Except.ok ((chunks.zip embeddings).map (fun ce =>
      { ce.1 with
          embedding := some (if ce.2.length ≠ EMBEDDING_VECTOR_SIZE
            then env.dummyEmb ce.1.text else ce.2),
          vector_id := "vec_" ++ (md5OfVec (if ce.2.length ≠ EMBEDDING_VECTOR_SIZE
            then env.dummyEmb ce.1.text else ce.2)).take 16 }))

/-- Concrete environment for the C3 counterexample: DeepSeek configured
and reachable, identity digest, dummy embedding `[1]`. -/
def envDS : EmbEnv :=
  ⟨fun s => s, fun _ => [1], true, false, fun _ => none, fun _ => true⟩

/-- Concrete environment for the DeepSeek per-batch population
counterexample: DeepSeek configured, the chat call failing exactly on
the text "c", identity digest. -/
def envDS2 : EmbEnv :=
  ⟨fun s => s, fun _ => [1], true, false, fun _ => none, fun t => t != "c"⟩

/-- Concrete environment for the C5 counterexample: only OpenAI
configured, the API echoing a zero vector per input text. -/
def envOA : EmbEnv :=
  ⟨fun s => s, fun _ => List.replicate EMBEDDING_VECTOR_SIZE 0, false, true,
    fun b => some (b.map (fun _ => List.replicate EMBEDDING_VECTOR_SIZE 0)),
    fun _ => true⟩

/-- A cache holding a valid (full-size) vector for the text "t1". -/
def cacheT1 : List (String × List ℚ) :=
  [("t1", List.replicate EMBEDDING_VECTOR_SIZE 0)]

/-- Initial state holding `cacheT1` and empty logs. -/
def stT1 : EmbState := ⟨cacheT1, [], [], []⟩

/-- A cache holding a valid (full-size) vector for the text "b". -/
def cacheB : List (String × List ℚ) :=
  [("b", List.replicate EMBEDDING_VECTOR_SIZE 0)]

/-- Initial state holding `cacheB` and empty logs. -/
def stB : EmbState := ⟨cacheB, [], [], []⟩

/-- Concrete environment for the C5 witness: no backend configured, so
every call takes the dummy fallback path; full-size dummy vectors. -/
def envDummy : EmbEnv :=
  ⟨fun s => s, fun _ => List.replicate EMBEDDING_VECTOR_SIZE 0, false, false,
    fun _ => none, fun _ => false⟩

/-- Parameters of the `generate_dummy_embedding` model: the MD5 integer
digest, the global numpy RNG modelled as an abstract `ℕ` state with
`rngInit` for `np.random.seed` and `draw` for `np.random.normal(0,1,n)`
(returning the draws and the advanced state), and the square root inside
`np.linalg.norm`, all over exact `ℚ` arithmetic in place of floats. -/
structure RngEnv where
  md5int : String → ℕ
  rngInit : ℕ → ℕ
  draw : ℕ → ℕ → List ℚ × ℕ
  sqrtFn : ℚ → ℚ

/-- Sum of squares of a vector — the square of its L2 norm. -/
def sumSq (v : List ℚ) : ℚ :=
  (v.map (fun x => x * x)).sum

/-- The vector drawn from the RNG after seeding it with the MD5 of the
text reduced mod 2^32 (embedding.py lines 32-40). -/
def rawDraw (env : RngEnv) (text : String) (n : ℕ) : List ℚ :=
  (env.draw (env.rngInit (env.md5int text % 2 ^ 32)) n).1

/-- Model of `generate_dummy_embedding` (embedding.py lines 21-45): seed
the global RNG with the MD5 of the text reduced mod 2^32, draw
`vector_size` normal values, and divide by the norm when it is
positive.  Takes the incoming global RNG state `_g` — discarded by the
reseeding — and returns the advanced state. -/
def generate_dummy_embedding (env : RngEnv) (text : String) (vector_size : ℕ)
    (_g : ℕ) : List ℚ × ℕ :=
  (if 0 < env.sqrtFn (sumSq (rawDraw env text vector_size)) then
    (rawDraw env text vector_size).map
      (fun x => x / env.sqrtFn (sumSq (rawDraw env text vector_size)))
   else rawDraw env text vector_size,
   (env.draw (env.rngInit (env.md5int text % 2 ^ 32)) vector_size).2)

/-- Concrete RNG environment for the C7 witness: the draw puts a 1 in
the first coordinate and 0 elsewhere, so the sum of squares is 1 and
the identity is a correct square root at that point. -/
def envRng : RngEnv :=
  ⟨fun _ => 0, fun s => s,
    fun g n => (if n = 0 then [] else 1 :: List.replicate (n - 1) 0, g),
    fun q => q⟩

theorem sp_space : sp ' ' = true := rfl

theorem allowed_space : allowedChar ' ' = true := by decide

theorem collapse_two (c d : Char) (t : List Char) :
    collapse (c :: d :: t) =
      if sp c && sp d then collapse (d :: t)
      else (if sp c then ' ' else c) :: collapse (d :: t) := rfl

theorem headSp_cons (c : Char) (t : List Char) : headSp (c :: t) = sp c := rfl

theorem headSp_nil : headSp [] = false := rfl

theorem noAdj_nil : noAdj [] = true := rfl

theorem noAdj_cons (c : Char) (t : List Char) :
    noAdj (c :: t) = ((!(sp c && headSp t)) && noAdj t) := rfl

theorem rstrip_cons (c : Char) (t : List Char) :
    rstrip (c :: t) = consR c (rstrip t) := rfl

theorem headSp_collapse (l : List Char) : headSp (collapse l) = headSp l := by
  match l with
  | [] => rfl
  | [c] =>
    show headSp (if sp c then [' '] else [c]) = sp c
    cases hc : sp c
    · simp [headSp_cons, hc]
    · simp [headSp_cons, sp_space]
  | c :: d :: t =>
    have ih := headSp_collapse (d :: t)
    rw [collapse_two]
    cases hc : sp c <;> cases hd : sp d
    · simp [hc, hd, headSp_cons]
    · simp [hc, hd, headSp_cons]
    · simp [hc, hd, headSp_cons, sp_space]
    · simp [hc, hd, ih, headSp_cons]

theorem noAdj_collapse (l : List Char) : noAdj (collapse l) = true := by
  match l with
  | [] => rfl
  | [c] =>
    show noAdj (if sp c then [' '] else [c]) = true
    cases hc : sp c <;> simp [noAdj_cons, noAdj_nil, headSp_nil]
  | c :: d :: t =>
    have ih := noAdj_collapse (d :: t)
    have hh : headSp (collapse (d :: t)) = sp d := headSp_collapse (d :: t)
    rw [collapse_two]
    cases hc : sp c <;> cases hd : sp d
    · simp [hc, hd, noAdj_cons, hh, ih]
    · simp [hc, hd, noAdj_cons, hh, ih]
    · simp [hc, hd, noAdj_cons, hh, ih, sp_space]
    · simp [hc, hd, ih]

theorem mem_collapse {c : Char} {l : List Char} (h : c ∈ collapse l) :
    c = ' ' ∨ (c ∈ l ∧ sp c = false) := by
  match l with
  | [] => simp [collapse] at h
  | [d] =>
    revert h
    show c ∈ (if sp d then [' '] else [d]) → _
    cases hd : sp d <;> intro h <;> simp at h
    · exact Or.inr ⟨by simp [h], by rw [h]; exact hd⟩
    · exact Or.inl h
  | d :: e :: t =>
    rw [collapse_two] at h
    cases hd : sp d <;> cases he : sp e <;>
      rw [hd, he] at h <;>
      simp only [Bool.and_self, Bool.true_and, Bool.false_and, Bool.and_false,
        if_true, if_false, ite_true, ite_false] at h
    · rcases List.mem_cons.mp h with h' | h'
      · exact Or.inr ⟨by simp [h'], by rw [h']; exact hd⟩
      · rcases mem_collapse h' with h'' | h''
        · exact Or.inl h''
        · exact Or.inr ⟨List.mem_cons_of_mem _ h''.1, h''.2⟩
    · rcases List.mem_cons.mp h with h' | h'
      · exact Or.inr ⟨by simp [h'], by rw [h']; exact hd⟩
      · rcases mem_collapse h' with h'' | h''
        · exact Or.inl h''
        · exact Or.inr ⟨List.mem_cons_of_mem _ h''.1, h''.2⟩
    · rcases List.mem_cons.mp h with h' | h'
      · exact Or.inl h'
      · rcases mem_collapse h' with h'' | h''
        · exact Or.inl h''
        · exact Or.inr ⟨List.mem_cons_of_mem _ h''.1, h''.2⟩
    · rcases mem_collapse h with h'' | h''
      · exact Or.inl h''
      · exact Or.inr ⟨List.mem_cons_of_mem _ h''.1, h''.2⟩

theorem wsNorm_collapse (l : List Char) : wsNorm (collapse l) := by
  intro c hc hsp
  rcases mem_collapse hc with h | h
  · exact h
  · rw [h.2] at hsp
    exact absurd hsp (by simp)

theorem allAllowed_collapse {l : List Char} (h : allAllowed l) :
    allAllowed (collapse l) := by
  intro c hc
  rcases mem_collapse hc with h' | h'
  · rw [h']; exact allowed_space
  · exact h c h'.1

theorem noAdj_tail {c : Char} {t : List Char} (h : noAdj (c :: t) = true) :
    noAdj t = true := by
  rw [noAdj_cons, Bool.and_eq_true] at h
  exact h.2

theorem noAdj_head {c : Char} {t : List Char} (h : noAdj (c :: t) = true) :
    (sp c && headSp t) = false := by
  cases hb : (sp c && headSp t)
  · rfl
  · exfalso
    rw [noAdj_cons, hb] at h
    simp at h

theorem collapse_eq_self {l : List Char} (h1 : noAdj l = true) (h2 : wsNorm l) :
    collapse l = l := by
  match l with
  | [] => rfl
  | [c] =>
    show (if sp c then [' '] else [c]) = [c]
    cases hc : sp c
    · simp
    · rw [if_pos rfl, h2 c (by simp) hc]
  | c :: d :: t =>
    have hna : noAdj (d :: t) = true := noAdj_tail h1
    have hnd : (sp c && sp d) = false := by
      have := noAdj_head h1
      rwa [headSp_cons] at this
    have h2' : wsNorm (d :: t) := fun x hx => h2 x (List.mem_cons_of_mem _ hx)
    have ih := collapse_eq_self hna h2'
    rw [collapse_two, hnd, if_neg (by simp), ih]
    cases hc : sp c
    · simp
    · rw [if_pos rfl, h2 c (by simp) hc]

theorem allAllowed_filter (l : List Char) : allAllowed (l.filter allowedChar) := by
  intro c hc
  exact (List.mem_filter.mp hc).2

theorem filter_allowed_eq_self {l : List Char} (h : allAllowed l) :
    l.filter allowedChar = l :=
  List.filter_eq_self.mpr h

theorem noAdj_dropWhile {l : List Char} (h : noAdj l = true) :
    noAdj (l.dropWhile sp) = true := by
  induction l with
  | nil => exact h
  | cons c t ih =>
    cases hc : sp c
    · rwa [List.dropWhile_cons_of_neg (by simp [hc])]
    · rw [List.dropWhile_cons_of_pos (by simp [hc])]
      exact ih (noAdj_tail h)

theorem mem_dropWhile {c : Char} {l : List Char} (h : c ∈ l.dropWhile sp) :
    c ∈ l := by
  induction l with
  | nil => simp at h
  | cons d t ih =>
    cases hd : sp d
    · rw [List.dropWhile_cons_of_neg (by simp [hd])] at h
      exact h
    · rw [List.dropWhile_cons_of_pos (by simp [hd])] at h
      exact List.mem_cons_of_mem _ (ih h)

theorem headSp_dropWhile (l : List Char) : headSp (l.dropWhile sp) = false := by
  induction l with
  | nil => rfl
  | cons c t ih =>
    cases hc : sp c
    · rw [List.dropWhile_cons_of_neg (by simp [hc]), headSp_cons, hc]
    · rwa [List.dropWhile_cons_of_pos (by simp [hc])]

theorem dropWhile_eq_self_of_headSp {l : List Char} (h : headSp l = false) :
    l.dropWhile sp = l := by
  match l with
  | [] => rfl
  | c :: t =>
    rw [headSp_cons] at h
    exact List.dropWhile_cons_of_neg (by simp [h])

theorem mem_rstrip {c : Char} {l : List Char} (h : c ∈ rstrip l) : c ∈ l := by
  induction l with
  | nil => simp [rstrip] at h
  | cons d t ih =>
    rw [rstrip_cons] at h
    rcases hr : rstrip t with _ | ⟨e, r⟩ <;> rw [hr] at h
    · revert h
      show c ∈ (if sp d then [] else [d]) → _
      cases hd : sp d <;> intro h <;> simp at h
      simp [h]
    · rcases List.mem_cons.mp h with h' | h'
      · simp [h']
      · exact List.mem_cons_of_mem _ (ih (by rw [hr]; exact h'))

theorem headSp_rstrip_true {l : List Char} (h : headSp (rstrip l) = true) :
    headSp l = true := by
  match l with
  | [] => simpa [rstrip] using h
  | c :: t =>
    rw [rstrip_cons] at h
    rw [headSp_cons]
    rcases hr : rstrip t with _ | ⟨e, r⟩ <;> rw [hr] at h
    · revert h
      show headSp (if sp c then [] else [c]) = true → _
      cases hc : sp c <;> intro h
      · rw [if_neg (by simp), headSp_cons, hc] at h
        exact h
      · rfl
    · rw [show consR c (e :: r) = c :: e :: r from rfl, headSp_cons] at h
      exact h

theorem noAdj_rstrip {l : List Char} (h : noAdj l = true) :
    noAdj (rstrip l) = true := by
  induction l with
  | nil => simpa [rstrip] using h
  | cons c t ih =>
    rw [rstrip_cons]
    rcases hr : rstrip t with _ | ⟨e, r⟩
    · show noAdj (if sp c then [] else [c]) = true
      cases hc : sp c <;> simp [noAdj_cons, noAdj_nil, headSp_nil]
    · rw [show consR c (e :: r) = c :: e :: r from rfl, noAdj_cons,
        Bool.and_eq_true]
      have hrest : noAdj (e :: r) = true := by
        rw [← hr]; exact ih (noAdj_tail h)
      refine ⟨?_, hrest⟩
      rw [headSp_cons]
      cases hc : sp c
      · simp
      · cases he : sp e
        · simp
        · have hht : headSp t = true := by
            apply headSp_rstrip_true
            rw [hr, headSp_cons, he]
          have := noAdj_head h
          rw [hc, hht] at this
          simp at this

theorem rstrip_idem (l : List Char) : rstrip (rstrip l) = rstrip l := by
  induction l with
  | nil => rfl
  | cons c t ih =>
    rw [rstrip_cons]
    rcases hr : rstrip t with _ | ⟨e, r⟩
    · show rstrip (if sp c then [] else [c]) = if sp c then [] else [c]
      cases hc : sp c <;> simp [rstrip, consR, hc]
    · rw [show consR c (e :: r) = c :: e :: r from rfl]
      have hre : rstrip (e :: r) = e :: r := by
        rw [← hr]
        rw [hr] at ih ⊢
        exact ih
      rw [rstrip_cons, hre]
      rfl

theorem headSp_rstrip_false {l : List Char} (h : headSp l = false) :
    headSp (rstrip l) = false := by
  cases hr : headSp (rstrip l)
  · rfl
  · rw [headSp_rstrip_true hr] at h
    exact h

theorem strip_idem (l : List Char) : strip (strip l) = strip l := by
  unfold strip
  rw [dropWhile_eq_self_of_headSp (headSp_rstrip_false (headSp_dropWhile l)),
    rstrip_idem]

theorem mem_strip {c : Char} {l : List Char} (h : c ∈ strip l) : c ∈ l :=
  mem_dropWhile (mem_rstrip h)

theorem noAdj_strip {l : List Char} (h : noAdj l = true) :
    noAdj (strip l) = true :=
  noAdj_rstrip (noAdj_dropWhile h)

theorem wsNorm_sub {l m : List Char} (hsub : ∀ c ∈ m, c ∈ l) (h : wsNorm l) :
    wsNorm m := fun c hc => h c (hsub c hc)

theorem allAllowed_sub {l m : List Char} (hsub : ∀ c ∈ m, c ∈ l)
    (h : allAllowed l) : allAllowed m := fun c hc => h c (hsub c hc)

/-- After one pass of `clean_text` the output only contains allowed
characters, and its whitespace is normalised to plain spaces. -/
theorem clean_text_props (l : List Char) :
    allAllowed (clean_text l) ∧ wsNorm (clean_text l) := by
  unfold clean_text
  constructor
  · exact allAllowed_sub (fun c hc => mem_strip hc) (allAllowed_filter _)
  · exact wsNorm_sub (fun c hc => mem_strip hc)
      (wsNorm_sub (fun c hc => (List.mem_filter.mp hc).1) (wsNorm_collapse l))

/-- A list that is allowed, whitespace-normalised, adjacency-free and has
no leading and no trailing whitespace is a fixed point of `clean_text`. -/
theorem clean_text_of_normal {l : List Char} (ha : allAllowed l)
    (hw : wsNorm l) (hn : noAdj l = true) (hh : headSp l = false)
    (hr : rstrip l = l) : clean_text l = l := by
  unfold clean_text strip
  rw [collapse_eq_self hn hw, filter_allowed_eq_self ha,
    dropWhile_eq_self_of_headSp hh, hr]

/-- The second application of `clean_text` reaches a fixed point: a third
application changes nothing. -/
theorem clean_text_third (l : List Char) :
    clean_text (clean_text (clean_text l)) = clean_text (clean_text l) := by
  have h1 := clean_text_props l
  set z := clean_text l with hz
  have hcz : allAllowed (collapse z) := allAllowed_collapse h1.1
  have h2 : clean_text z = strip (collapse z) := by
    unfold clean_text
    rw [filter_allowed_eq_self hcz]
  have hna : noAdj (clean_text z) = true := by
    rw [h2]; exact noAdj_strip (noAdj_collapse z)
  have hal : allAllowed (clean_text z) :=
    allAllowed_sub (fun c hc => mem_strip (h2 ▸ hc)) hcz
  have hwn : wsNorm (clean_text z) :=
    wsNorm_sub (fun c hc => mem_strip (h2 ▸ hc)) (wsNorm_collapse z)
  have hhd : headSp (clean_text z) = false := by
    rw [h2]
    exact headSp_rstrip_false (headSp_dropWhile _)
  have hrs : rstrip (clean_text z) = clean_text z := by
    rw [h2]
    unfold strip
    exact rstrip_idem _
  exact clean_text_of_normal hal hwn hna hhd hrs

theorem rfind_le {text pat : List Char} {a b i : ℕ}
    (h : rfind text pat a b = some i) :
    a ≤ i ∧ i + pat.length ≤ min b text.length := by
  unfold rfind at h
  have hmem := List.max?_mem (fun x y => max_choice x y) h
  have hp := (List.mem_filter.mp hmem).2
  simp only [Bool.and_eq_true, decide_eq_true_eq] at hp
  exact ⟨hp.1.1, hp.1.2⟩

theorem chunkEnd_lt {text : List Char} {start cs : ℕ}
    (h : start + cs < text.length) :
    chunkEnd text start (start + cs) < text.length := by
  rcases h1 : rfind text ['.', ' '] start (start + cs) with _ | se
  · rcases h2 : rfind text [' '] start (start + cs) with _ | sc
    · have h3 : chunkEnd text start (start + cs) = start + cs := by
        unfold chunkEnd
        rw [h1, h2]
      rw [h3]
      exact h
    · have h3 : chunkEnd text start (start + cs) = sc := by
        unfold chunkEnd
        rw [h1, h2]
      have := (rfind_le h2).2
      simp only [List.length_cons, List.length_nil] at this
      rw [h3]
      omega
  · have h3 : chunkEnd text start (start + cs) = se + 1 := by
      unfold chunkEnd
      rw [h1]
    have := (rfind_le h1).2
    simp only [List.length_cons, List.length_nil] at this
    rw [h3]
    omega

theorem chunkLoop_succ (text : List Char) (cs ov fuel start : ℕ)
    (acc : List (List Char)) :
    chunkLoop text cs ov (fuel + 1) start acc =
      if start < text.length then
        if text.length ≤ start + cs then some (acc ++ [text.drop start])
        else
          chunkLoop text cs ov fuel
            (if ov < chunkEnd text start (start + cs) then
              chunkEnd text start (start + cs) - ov
            else chunkEnd text start (start + cs))
            (acc ++ [strip ((text.take (chunkEnd text start (start + cs))).drop start)])
      else some acc := rfl

theorem chunkLoop_shape (text : List Char) (cs ov : ℕ) :
    ∀ fuel start acc chunks,
      start < text.length →
      (∀ c ∈ acc, strip c = c) →
      chunkLoop text cs ov fuel start acc = some chunks →
      chunks ≠ [] ∧ (∀ c ∈ chunks.dropLast, strip c = c) ∧
        ∃ s, chunks.getLast? = some (text.drop s) := by
  intro fuel
  induction fuel with
  | zero =>
    intro start acc chunks _ _ h
    exact absurd h (by simp [chunkLoop])
  | succ k ih =>
    intro start acc chunks hlt hacc h
    rw [chunkLoop_succ, if_pos hlt] at h
    by_cases hend : text.length ≤ start + cs
    · rw [if_pos hend] at h
      have hch := Option.some.inj h
      subst hch
      refine ⟨by simp, ?_, ⟨start, by simp⟩⟩
      intro c hc
      simp only [List.dropLast_concat, List.dropLast_append_cons,
        List.dropLast_single, List.append_nil] at hc
      exact hacc c hc
    · rw [if_neg hend] at h
      have hcs : start + cs < text.length := by omega
      have he1 : chunkEnd text start (start + cs) < text.length := chunkEnd_lt hcs
      refine ih _ _ _ ?_ ?_ h
      · by_cases hov : ov < chunkEnd text start (start + cs) <;>
          simp only [hov, if_true, if_false, ite_true, ite_false] <;> omega
      · intro c hc
        rcases List.mem_append.mp hc with h' | h'
        · exact hacc c h'
        · rw [List.mem_singleton.mp h']
          exact strip_idem _

/-- C10: for text longer than `chunk_size`, in every chunk list returned
by `chunk_text` all chunks except the last are whitespace-stripped
(fixed points of `strip`), while the final chunk is the verbatim suffix
`text[start:]` of the input and may carry leading whitespace. -/
theorem chunk_text_middle_stripped_last_verbatim
    (fuel cs ov : ℕ) (text : List Char) (chunks : List (List Char))
    (hlong : cs < text.length) (h : chunk_text fuel text cs ov = some chunks) :
    chunks ≠ [] ∧ (∀ c ∈ chunks.dropLast, strip c = c) ∧
      ∃ s, chunks.getLast? = some (text.drop s) := by
  unfold chunk_text at h
  have hne : text ≠ [] := by
    intro he
    rw [he] at hlong
    simp at hlong
  rw [if_neg hne, if_neg (by omega)] at h
  exact chunkLoop_shape text cs ov fuel 0 [] chunks (by omega) (by simp) h

/-- Witness for C10 at the input
"This is one. This is two. This is three." with chunk size 20 and
overlap 5: three chunks, the first two stripped, the last the verbatim
remainder " two. This is three." (leading whitespace kept). -/
theorem chunk_text_middle_stripped_last_verbatim_witness :
    20 < (String.toList "This is one. This is two. This is three.").length ∧
      ([String.toList "This is one.", String.toList "one. This is two.",
          String.toList " two. This is three."] ≠ ([] : List (List Char)) ∧
        (∀ c ∈ [String.toList "This is one.", String.toList "one. This is two.",
            String.toList " two. This is three."].dropLast, strip c = c) ∧
        ∃ s, [String.toList "This is one.", String.toList "one. This is two.",
            String.toList " two. This is three."].getLast? =
          some ((String.toList "This is one. This is two. This is three.").drop s)) :=
  ⟨by decide,
    chunk_text_middle_stripped_last_verbatim 30 20 5
      (String.toList "This is one. This is two. This is three.")
      [String.toList "This is one.", String.toList "one. This is two.",
        String.toList " two. This is three."]
      (by decide) (by decide)⟩

theorem chunkLoop_stall :
    ∀ n acc, chunkLoop (String.toList "abc defghijk") 5 2 n 1 acc = none := by
  intro n
  induction n with
  | zero => intro acc; rfl
  | succ k ih =>
    intro acc
    have hstep : chunkLoop (String.toList "abc defghijk") 5 2 (k + 1) 1 acc
        = chunkLoop (String.toList "abc defghijk") 5 2 k 1
            (acc ++ [String.toList "bc"]) := rfl
    rw [hstep]
    exact ih _

/-- C1: the advance `start = end - overlap if end > overlap else end`
does not guarantee forward progress: on the text "abc defghijk" with
chunk_size 5 and overlap 2 (overlap < chunk_size) the loop reaches
start = 1, recomputes end = 3 from the same space boundary forever, and
`chunk_text` never terminates — the model returns `none` for every
fuel. -/
theorem chunk_text_nonterminating :
    2 < 5 ∧
      ∀ fuel, chunk_text fuel (String.toList "abc defghijk") 5 2 = none := by
  refine ⟨by decide, ?_⟩
  intro fuel
  unfold chunk_text
  rw [if_neg (by decide), if_neg (by decide)]
  cases fuel with
  | zero => rfl
  | succ n =>
    have hstep : chunkLoop (String.toList "abc defghijk") 5 2 (n + 1) 0 []
        = chunkLoop (String.toList "abc defghijk") 5 2 n 1
            [String.toList "abc"] := rfl
    rw [hstep]
    exact chunkLoop_stall n _

/-- C4 (amended): for every nonempty text of length at most `chunk_size`,
`chunk_text` returns the single chunk holding the whole text. -/
theorem chunk_text_single_whole (fuel : ℕ) (text : List Char) (cs ov : ℕ)
    (hne : text ≠ []) (hlen : text.length ≤ cs) :
    chunk_text fuel text cs ov = some [text] := by
  unfold chunk_text
  rw [if_neg hne, if_pos hlen]

/-- C4 counterexample: the empty text has length 0 ≤ chunk_size but
`chunk_text` returns the empty list, not the one-element list holding
the empty text. -/
theorem chunk_text_empty_not_single :
    chunk_text 1 [] 1000 200 = some [] ∧
      ¬ chunk_text 1 [] 1000 200 = some [[]] := by
  constructor
  · rfl
  · decide

/-- Witness for the amended C4 at the spec's own example "Short text."
with chunk size 100. -/
theorem chunk_text_single_whole_witness :
    (String.toList "Short text." ≠ [] ∧
        (String.toList "Short text.").length ≤ 100) ∧
      chunk_text 1 (String.toList "Short text.") 100 200 =
        some [String.toList "Short text."] :=
  ⟨⟨by decide, by decide⟩,
    chunk_text_single_whole 1 (String.toList "Short text.") 100 200
      (by decide) (by decide)⟩

/-- C2 counterexample: `clean_text` is not idempotent.  On "a @ b" the
first pass removes the disallowed "@" and leaves two adjacent spaces
("a  b"); the second pass collapses them to one ("a b"). -/
theorem clean_text_not_idempotent :
    ¬ clean_text (clean_text (String.toList "a @ b"))
        = clean_text (String.toList "a @ b") := by
  decide

theorem chunkTimes_matches_timeRangeAt (positions : List SubSpan)
    (subs : List Subtitle) (hne : subs ≠ []) (s e : ℕ) (ch : Chunk)
    (h1 : ch.start_time = (chunkTimes positions subs s e).1)
    (h2 : ch.end_time = (chunkTimes positions subs s e).2) :
    timeRangeAt positions subs s e ch := by
  unfold timeRangeAt
  obtain ⟨s0, rest, rfl⟩ := List.exists_cons_of_ne_nil hne
  rcases hf : (s0 :: rest).getLast? with _ | sl
  · simp at hf
  rcases hfil : positions.filter (fun p => p.startPos ≤ e && p.endPos ≥ s)
      with _ | ⟨o, os⟩
  · right
    have hct : chunkTimes positions (s0 :: rest) s e = (s0.start_time, sl.end_time) := by
      unfold chunkTimes
      rw [hfil, hf]
    refine ⟨hfil, s0, sl, rfl, rfl, ?_, ?_⟩
    · rw [h1, hct]
    · rw [h2, hct]
  · left
    have hct : chunkTimes positions (s0 :: rest) s e =
        ((os.map (fun p => p.start_time)).foldl min o.start_time,
          (os.map (fun p => p.end_time)).foldl max o.end_time) := by
      unfold chunkTimes
      rw [hfil]
    rw [hfil]
    refine ⟨by simp, ?_, ?_⟩
    · show (o.start_time :: os.map (fun p => p.start_time)).min? = some ch.start_time
      rw [h1, hct]
      rfl
    · show (o.end_time :: os.map (fun p => p.end_time)).max? = some ch.end_time
      rw [h2, hct]
      rfl

theorem alignChunks_spans (positions : List SubSpan) (total : List Char)
    (subs : List Subtitle) (hne : subs ≠ []) :
    ∀ (tcs : List (List Char)) (i cur : ℕ),
      (alignChunks positions total subs tcs i cur).map Chunk.text = tcs ∧
      ∀ (k : ℕ) (hk : k < (alignChunks positions total subs tcs i cur).length)
        (se : ℕ × ℕ), (chunkSpans total tcs cur)[k]? = some se →
        timeRangeAt positions subs se.1 se.2
          ((alignChunks positions total subs tcs i cur).get ⟨k, hk⟩) := by
  intro tcs
  induction tcs with
  | nil =>
    intro i cur
    refine ⟨rfl, fun k hk se hse => ?_⟩
    simp [chunkSpans] at hse
  | cons c rest ih =>
    intro i cur
    have hunf : alignChunks positions total subs (c :: rest) i cur =
        ⟨c, i,
          (chunkTimes positions subs ((findFrom total c cur).getD cur)
            ((findFrom total c cur).getD cur + c.length)).1,
          (chunkTimes positions subs ((findFrom total c cur).getD cur)
            ((findFrom total c cur).getD cur + c.length)).2⟩ ::
        alignChunks positions total subs rest (i + 1)
          ((findFrom total c cur).getD cur + c.length) := rfl
    constructor
    · rw [hunf, List.map_cons,
        (ih (i + 1) ((findFrom total c cur).getD cur + c.length)).1]
    · intro k hk se hse
      match k, hk with
      | 0, hk =>
        have hse0 : se = ((findFrom total c cur).getD cur,
            (findFrom total c cur).getD cur + c.length) := by
          rw [show chunkSpans total (c :: rest) cur =
              ((findFrom total c cur).getD cur,
                (findFrom total c cur).getD cur + c.length) ::
              chunkSpans total rest
                ((findFrom total c cur).getD cur + c.length) from rfl,
            List.getElem?_cons_zero] at hse
          exact (Option.some.inj hse).symm
        subst hse0
        exact chunkTimes_matches_timeRangeAt positions subs hne _ _ _ rfl rfl
      | k + 1, hk =>
        have hse' : (chunkSpans total rest
            ((findFrom total c cur).getD cur + c.length))[k]? = some se := by
          rw [show chunkSpans total (c :: rest) cur =
              ((findFrom total c cur).getD cur,
                (findFrom total c cur).getD cur + c.length) ::
              chunkSpans total rest
                ((findFrom total c cur).getD cur + c.length) from rfl,
            List.getElem?_cons_succ] at hse
          exact hse
        have hk' : k < (alignChunks positions total subs rest (i + 1)
            ((findFrom total c cur).getD cur + c.length)).length := by
          rw [hunf] at hk
          simpa using hk
        exact (ih (i + 1) ((findFrom total c cur).getD cur + c.length)).2
          k hk' se hse'

/-- C6: for every nonempty subtitle list, every chunk produced by
`process_video_subtitles` has its time range determined, at the chunk's
own character span — the span located by searching the concatenated
text forward from the previous chunk's end (`chunkSpans`) — by the
inclusive-overlap rule: the minimum start time and maximum end time of
all subtitle spans overlapping that span, falling back to the first
subtitle's start time and the last subtitle's end time when no span
overlaps, so the times are never unset when subtitles exist.  The
witness instantiates the spec's end-to-end example
([{"Hello world",0,2},{"this is a test",2,5}] giving exactly one chunk
timed [0, 5]). -/
theorem process_video_subtitles_time_range (fuel : ℕ) (subs : List Subtitle)
    (chunks : List Chunk) (hne : subs ≠ [])
    (h : process_video_subtitles fuel subs = some chunks) :
    ∀ (k : ℕ) (hk : k < chunks.length) (se : ℕ × ℕ),
      (chunkSpans (List.intercalate [' '] (subs.map (fun s => s.text)))
        (chunks.map Chunk.text) 0)[k]? = some se →
      timeRangeAt (charPositions subs 0) subs se.1 se.2 (chunks.get ⟨k, hk⟩) := by
  unfold process_video_subtitles at h
  rcases hct : chunk_text fuel
      (clean_text (List.intercalate [' '] (subs.map (fun s => s.text)))) 1000 200
      with _ | tcs
  · rw [hct] at h
    exact absurd h (by simp)
  · rw [hct] at h
    have h' := Option.some.inj h
    subst h'
    intro k hk se hse
    rw [(alignChunks_spans (charPositions subs 0)
      (List.intercalate [' '] (subs.map (fun s => s.text))) subs hne tcs 0 0).1] at hse
    exact (alignChunks_spans (charPositions subs 0)
      (List.intercalate [' '] (subs.map (fun s => s.text))) subs hne tcs 0 0).2
      k hk se hse

/-- Witness for C6 at the spec's end-to-end example: the two subtitles
"Hello world" [0,2] and "this is a test" [2,5] produce exactly one
chunk, holding the whole cleaned text and timed [0, 5], and at its
located character span it satisfies the time-range rule. -/
theorem process_video_subtitles_time_range_witness :
    process_video_subtitles 1
        [⟨String.toList "Hello world", 0, 2⟩, ⟨String.toList "this is a test", 2, 5⟩]
      = some [⟨String.toList "Hello world this is a test", 0, 0, 5⟩] ∧
    ∀ (k : ℕ)
      (hk : k < [(⟨String.toList "Hello world this is a test", 0, 0, 5⟩ : Chunk)].length)
      (se : ℕ × ℕ),
      (chunkSpans
        (List.intercalate [' ']
          ([(⟨String.toList "Hello world", 0, 2⟩ : Subtitle),
            ⟨String.toList "this is a test", 2, 5⟩].map (fun s => s.text)))
        ([(⟨String.toList "Hello world this is a test", 0, 0, 5⟩ : Chunk)].map
          Chunk.text) 0)[k]? = some se →
      timeRangeAt
        (charPositions
          [⟨String.toList "Hello world", 0, 2⟩, ⟨String.toList "this is a test", 2, 5⟩] 0)
        [⟨String.toList "Hello world", 0, 2⟩, ⟨String.toList "this is a test", 2, 5⟩]
        se.1 se.2
        ([(⟨String.toList "Hello world this is a test", 0, 0, 5⟩ : Chunk)].get ⟨k, hk⟩) :=
  ⟨by decide,
    process_video_subtitles_time_range 1
      [⟨String.toList "Hello world", 0, 2⟩, ⟨String.toList "this is a test", 2, 5⟩]
      [⟨String.toList "Hello world this is a test", 0, 0, 5⟩]
      (by decide) (by decide)⟩

theorem cacheLookup_insert (cache : List (String × List ℚ)) (k : String)
    (v : List ℚ) : cacheLookup (cacheInsert cache k v) k = some v := by
  induction cache with
  | nil => simp [cacheInsert, cacheLookup]
  | cons p rest ih =>
    obtain ⟨k0, v0⟩ := p
    by_cases h : k0 = k
    · simp [cacheInsert, h, cacheLookup]
    · simp [cacheInsert, h, cacheLookup, ih]

theorem cacheLookup_insert_ne (cache : List (String × List ℚ)) (k k' : String)
    (v : List ℚ) (h : k ≠ k') :
    cacheLookup (cacheInsert cache k v) k' = cacheLookup cache k' := by
  induction cache with
  | nil => simp [cacheInsert, cacheLookup, h]
  | cons p rest ih =>
    obtain ⟨k0, v0⟩ := p
    by_cases h0 : k0 = k
    · subst h0
      simp [cacheInsert, cacheLookup, h]
    · simp [cacheInsert, h0, cacheLookup, ih]

/-- C9: cache round-trip: saving a full-size vector under a text makes
`get_cached_embedding` of that text return exactly it; a text whose key
was never stored yields `none`; a stored vector of the wrong length is
treated as absent. -/
theorem cache_round_trip (env : EmbEnv) (cache : List (String × List ℚ))
    (t u : String) (v : List ℚ) (hdim : v.length = EMBEDDING_VECTOR_SIZE) :
    get_cached_embedding env (save_embedding_to_cache env cache t v) t = some v ∧
    (cacheLookup cache (env.md5hex u) = none →
      get_cached_embedding env cache u = none) ∧
    (∀ w, cacheLookup cache (env.md5hex u) = some w →
      w.length ≠ EMBEDDING_VECTOR_SIZE → get_cached_embedding env cache u = none) := by
  refine ⟨?_, ?_, ?_⟩
  · unfold get_cached_embedding save_embedding_to_cache
    rw [cacheLookup_insert]
    simp [hdim]
  · intro h
    unfold get_cached_embedding
    rw [h]
  · intro w h hw
    unfold get_cached_embedding
    rw [h]
    simp [hw]

/-- Witness for C9: put "foo" with the vector of 1536 tenths into a
cache that holds a wrong-length entry under "bar"; get "foo" returns
the vector, the never-stored text behaves as absent, and the
wrong-length entry for "bar" is treated as absent. -/
theorem cache_round_trip_witness :
    get_cached_embedding envOA
        (save_embedding_to_cache envOA [("bar", [1, 2])] "foo"
          (List.replicate EMBEDDING_VECTOR_SIZE (1 / 10))) "foo"
      = some (List.replicate EMBEDDING_VECTOR_SIZE (1 / 10)) ∧
    (cacheLookup [("bar", [1, 2])] (envOA.md5hex "bar") = none →
      get_cached_embedding envOA [("bar", [1, 2])] "bar" = none) ∧
    (∀ w, cacheLookup [("bar", [1, 2])] (envOA.md5hex "bar") = some w →
      w.length ≠ EMBEDDING_VECTOR_SIZE →
      get_cached_embedding envOA [("bar", [1, 2])] "bar" = none) :=
  cache_round_trip envOA [("bar", [1, 2])] "foo" "bar"
    (List.replicate EMBEDDING_VECTOR_SIZE (1 / 10)) (by simp)

theorem get_map_zip {α β γ : Type} (f : α × β → γ) :
    ∀ (cs : List α) (es : List β) (i : ℕ) (h1 : i < cs.length)
      (h2 : i < es.length) (h3 : i < ((cs.zip es).map f).length),
      ((cs.zip es).map f).get ⟨i, h3⟩ = f (cs.get ⟨i, h1⟩, es.get ⟨i, h2⟩) := by
  intro cs
  induction cs with
  | nil =>
    intro es i h1
    simp at h1
  | cons c cs ih =>
    intro es i h1 h2 h3
    match es, i with
    | [], _ => simp at h2
    | e :: es, 0 => rfl
    | e :: es, i + 1 =>
      exact ih es i (by simpa using h1) (by simpa using h2)
        (by simpa using h3)

/-- C8: `store_embeddings` raises exactly when the chunk and embedding
counts differ; with equal counts it returns the chunk list where chunk
i carries embedding i (the dummy embedding replacing a wrong-size
vector). -/
theorem store_embeddings_mismatch (env : EmbEnv) (md5OfVec : List ℚ → String)
    (chunks : List SChunk) (embeddings : List (List ℚ)) :
    ((∃ msg, store_embeddings env md5OfVec chunks embeddings = Except.error msg) ↔
      chunks.length ≠ embeddings.length) ∧
    (chunks.length = embeddings.length →
      ∃ out, store_embeddings env md5OfVec chunks embeddings = Except.ok out ∧
        out.length = chunks.length ∧
        ∀ (i : ℕ) (hc : i < chunks.length) (he : i < embeddings.length)
          (ho : i < out.length),
          (out.get ⟨i, ho⟩).text = (chunks.get ⟨i, hc⟩).text ∧
          (out.get ⟨i, ho⟩).embedding =
            some (if (embeddings.get ⟨i, he⟩).length ≠ EMBEDDING_VECTOR_SIZE
              then env.dummyEmb (chunks.get ⟨i, hc⟩).text
              else embeddings.get ⟨i, he⟩)) := by
  constructor
  · constructor
    · rintro ⟨msg, h⟩
      intro heq
      unfold store_embeddings at h
      rw [if_neg (by omega)] at h
      exact absurd h (by simp)
    · intro hne
      exact ⟨_, by unfold store_embeddings; rw [if_pos hne]⟩
  · intro hlen
    refine ⟨_, by unfold store_embeddings; rw [if_neg (by omega)], ?_, ?_⟩
    · simp [hlen]
    · intro i hc he ho
      rw [get_map_zip _ chunks embeddings i hc he ho]
      exact ⟨rfl, rfl⟩

/-- Witness for C8: one chunk with zero embeddings raises; one chunk
with one embedding succeeds and pairs them. -/
theorem store_embeddings_mismatch_witness :
    (∃ msg, store_embeddings envOA (fun _ => "") [⟨"a", none, ""⟩] []
        = Except.error msg) ∧
    (∃ out, store_embeddings envOA (fun _ => "") [⟨"a", none, ""⟩] [[1]]
        = Except.ok out ∧
      out.length = [(⟨"a", none, ""⟩ : SChunk)].length ∧
      ∀ (i : ℕ) (hc : i < [(⟨"a", none, ""⟩ : SChunk)].length)
        (he : i < [[(1 : ℚ)]].length) (ho : i < out.length),
        (out.get ⟨i, ho⟩).text = ([(⟨"a", none, ""⟩ : SChunk)].get ⟨i, hc⟩).text ∧
        (out.get ⟨i, ho⟩).embedding =
          some (if ([[(1 : ℚ)]].get ⟨i, he⟩).length ≠ EMBEDDING_VECTOR_SIZE
            then envOA.dummyEmb (([(⟨"a", none, ""⟩ : SChunk)].get ⟨i, hc⟩)).text
            else [[(1 : ℚ)]].get ⟨i, he⟩)) :=
  ⟨(store_embeddings_mismatch envOA (fun _ => "") [⟨"a", none, ""⟩] []).1.mpr
      (by decide),
    (store_embeddings_mismatch envOA (fun _ => "") [⟨"a", none, ""⟩] [[1]]).2
      (by decide)⟩

theorem get_cached_isSome_of_save (env : EmbEnv)
    (cache : List (String × List ℚ)) (t u : String) (w : List ℚ)
    (hw : w.length = EMBEDDING_VECTOR_SIZE)
    (h : (get_cached_embedding env cache t).isSome = true) :
    (get_cached_embedding env (save_embedding_to_cache env cache u w) t).isSome
      = true := by
  by_cases hk : env.md5hex u = env.md5hex t
  · unfold get_cached_embedding save_embedding_to_cache
    rw [hk, cacheLookup_insert]
    simp [hw]
  · unfold get_cached_embedding save_embedding_to_cache
    unfold get_cached_embedding at h
    rw [cacheLookup_insert_ne _ _ _ _ hk]
    exact h

theorem dummyPath_preserves_cached (env : EmbEnv)
    (hdim : ∀ x, (env.dummyEmb x).length = EMBEDDING_VECTOR_SIZE) :
    ∀ (texts : List String) (st : EmbState) (acc : List (Option (List ℚ)))
      (t : String),
      (get_cached_embedding env st.cache t).isSome = true →
      (get_cached_embedding env (dummyPath env texts st acc).2.cache t).isSome
        = true := by
  intro texts
  induction texts with
  | nil => intro st acc t h; exact h
  | cons u rest ih =>
    intro st acc t h
    rcases hg : get_cached_embedding env st.cache u with _ | v
    · simp only [dummyPath, hg]
      exact ih _ _ t (get_cached_isSome_of_save env _ t u _ (hdim u) h)
    · simp only [dummyPath, hg]
      exact ih _ _ t h

theorem dummyPath_populates (env : EmbEnv)
    (hdim : ∀ x, (env.dummyEmb x).length = EMBEDDING_VECTOR_SIZE) :
    ∀ (texts : List String) (st : EmbState) (acc : List (Option (List ℚ)))
      (t : String), t ∈ texts →
      (get_cached_embedding env (dummyPath env texts st acc).2.cache t).isSome
        = true := by
  intro texts
  induction texts with
  | nil => intro st acc t h; simp at h
  | cons u rest ih =>
    intro st acc t h
    rcases List.mem_cons.mp h with rfl | hmem
    · rcases hg : get_cached_embedding env st.cache t with _ | v
      · simp only [dummyPath, hg]
        apply dummyPath_preserves_cached env hdim
        show (get_cached_embedding env
          (save_embedding_to_cache env st.cache t (env.dummyEmb t)) t).isSome = true
        unfold get_cached_embedding save_embedding_to_cache
        rw [cacheLookup_insert]
        simp [hdim t]
      · simp only [dummyPath, hg]
        apply dummyPath_preserves_cached env hdim
        simp [hg]
    · rcases hg : get_cached_embedding env st.cache u with _ | v <;>
        simp only [dummyPath, hg] <;> exact ih _ _ t hmem

theorem dummyPath_no_recompute (env : EmbEnv)
    (hdim : ∀ x, (env.dummyEmb x).length = EMBEDDING_VECTOR_SIZE) :
    ∀ (texts : List String) (st : EmbState) (acc : List (Option (List ℚ)))
      (t : String),
      (get_cached_embedding env st.cache t).isSome = true →
      t ∉ st.dummyLog →
      t ∉ (dummyPath env texts st acc).2.dummyLog := by
  intro texts
  induction texts with
  | nil => intro st acc t _ hlog; exact hlog
  | cons u rest ih =>
    intro st acc t h hlog
    rcases hg : get_cached_embedding env st.cache u with _ | v
    · have htu : t ≠ u := by
        intro he
        rw [he] at h
        rw [hg] at h
        simp at h
      simp only [dummyPath, hg]
      apply ih _ _ t (get_cached_isSome_of_save env _ t u _ (hdim u) h)
      simp [hlog, htu]
    · simp only [dummyPath, hg]
      exact ih _ _ t h hlog

theorem generate_embeddings_dummy_cache_per_text (env : EmbEnv) (st : EmbState)
    (texts : List String)
    (hds : env.deepseekKey = false) (hoa : env.openaiKey = false)
    (hdim : ∀ x, (env.dummyEmb x).length = EMBEDDING_VECTOR_SIZE) :
    (∀ t ∈ texts, (get_cached_embedding env
        (generate_embeddings env st texts).2.cache t).isSome = true) ∧
    (∀ t, (get_cached_embedding env st.cache t).isSome = true →
      t ∉ st.dummyLog →
      t ∉ (generate_embeddings env st texts).2.dummyLog) := by
  by_cases hts : texts = []
  · subst hts
    constructor
    · intro t ht
      simp at ht
    · intro t h hlog
      simpa only [generate_embeddings, if_pos rfl] using hlog
  · have hge : generate_embeddings env st texts = dummyPath env texts st [] := by
      unfold generate_embeddings generate_openai_embeddings
      rw [if_neg hts, if_pos hds, if_neg (by simp [hoa])]
    rw [hge]
    exact ⟨fun t ht => dummyPath_populates env hdim texts st [] t ht,
      fun t h hlog => dummyPath_no_recompute env hdim texts st [] t h hlog⟩

theorem generate_embeddings_dummy_cache_per_text_witness :
    (∀ t ∈ ["x"], (get_cached_embedding envDummy
        (generate_embeddings envDummy ⟨[], [], [], []⟩ ["x"]).2.cache t).isSome
      = true) ∧
    (∀ t, (get_cached_embedding envDummy
        (⟨[], [], [], []⟩ : EmbState).cache t).isSome = true →
      t ∉ (⟨[], [], [], []⟩ : EmbState).dummyLog →
      t ∉ (generate_embeddings envDummy ⟨[], [], [], []⟩ ["x"]).2.dummyLog) :=
  generate_embeddings_dummy_cache_per_text envDummy ⟨[], [], [], []⟩ ["x"]
    rfl rfl (fun x => by simp [envDummy])

theorem partitionCached_miss (env : EmbEnv) (cache : List (String × List ℚ)) :
    ∀ (b : List String) (j : ℕ) (t : String),
      t ∈ (partitionCached env cache b j).2.1 →
      get_cached_embedding env cache t = none := by
  intro b
  induction b with
  | nil =>
    intro j t h
    simp [partitionCached] at h
  | cons u rest ih =>
    intro j t h
    rcases hg : get_cached_embedding env cache u with _ | v
    · simp only [partitionCached, hg] at h
      rcases List.mem_cons.mp h with rfl | h'
      · exact hg
      · exact ih _ _ h'
    · simp only [partitionCached, hg] at h
      exact ih _ _ h

theorem deepseekCalls_cons (env : EmbEnv) (u : String) (rest : List String)
    (st : EmbState) (acc : List (List ℚ)) :
    deepseekCalls env (u :: rest) st acc =
      if env.deepseekOk u then
        deepseekCalls env rest { st with deepseekLog := st.deepseekLog ++ [u] }
          (acc ++ [env.dummyEmb u])
      else (none, { st with deepseekLog := st.deepseekLog ++ [u] }) := rfl

theorem deepseekCalls_cache (env : EmbEnv) :
    ∀ (te : List String) (st : EmbState) (acc : List (List ℚ)),
      ((deepseekCalls env te st acc).2).cache = st.cache := by
  intro te
  induction te with
  | nil => intro st acc; rfl
  | cons u rest ih =>
    intro st acc
    by_cases hok : env.deepseekOk u = true
    · rw [deepseekCalls_cons, if_pos hok]
      exact ih _ _
    · rw [deepseekCalls_cons, if_neg hok]

theorem deepseekCalls_log (env : EmbEnv) :
    ∀ (te : List String) (st : EmbState) (acc : List (List ℚ)) (t : String),
      t ∉ st.deepseekLog → t ∉ te →
      t ∉ ((deepseekCalls env te st acc).2).deepseekLog := by
  intro te
  induction te with
  | nil => intro st acc t h _; exact h
  | cons u rest ih =>
    intro st acc t h hte
    have htu : t ≠ u := fun he => hte (he ▸ List.mem_cons_self u rest)
    have hte' : t ∉ rest := fun h' => hte (List.mem_cons_of_mem _ h')
    have hlog : t ∉ st.deepseekLog ++ [u] := by
      intro hm
      rcases List.mem_append.mp hm with hm | hm
      · exact h hm
      · exact htu (List.mem_singleton.mp hm)
    by_cases hok : env.deepseekOk u = true
    · rw [deepseekCalls_cons, if_pos hok]
      exact ih _ _ t hlog hte'
    · rw [deepseekCalls_cons, if_neg hok]
      exact hlog

theorem deepseekCalls_out (env : EmbEnv)
    (hdim : ∀ x, (env.dummyEmb x).length = EMBEDDING_VECTOR_SIZE) :
    ∀ (te : List String) (st : EmbState) (acc : List (List ℚ))
      (vs : List (List ℚ)) (st' : EmbState),
      deepseekCalls env te st acc = (some vs, st') →
      (∀ v ∈ acc, v.length = EMBEDDING_VECTOR_SIZE) →
      ∀ v ∈ vs, v.length = EMBEDDING_VECTOR_SIZE := by
  intro te
  induction te with
  | nil =>
    intro st acc vs st' h hacc
    have h1 : (some acc : Option (List (List ℚ))) = some vs := congrArg Prod.fst h
    rw [← Option.some.inj h1]
    exact hacc
  | cons u rest ih =>
    intro st acc vs st' h hacc
    by_cases hok : env.deepseekOk u = true
    · rw [deepseekCalls_cons, if_pos hok] at h
      refine ih _ _ vs st' h ?_
      intro v hv
      rcases List.mem_append.mp hv with hv | hv
      · exact hacc v hv
      · rw [List.mem_singleton.mp hv]
        exact hdim u
    · rw [deepseekCalls_cons, if_neg hok] at h
      exfalso
      have := congrArg Prod.fst h
      simp at this

theorem saveZip_preserves (env : EmbEnv) :
    ∀ (ts : List String) (vs : List (List ℚ)) (cache : List (String × List ℚ))
      (t : String),
      (∀ v ∈ vs, v.length = EMBEDDING_VECTOR_SIZE) →
      (get_cached_embedding env cache t).isSome = true →
      (get_cached_embedding env (saveZip env ts vs cache) t).isSome = true := by
  intro ts
  induction ts with
  | nil => intro vs cache t _ h; exact h
  | cons u ts ih =>
    intro vs cache t hvs h
    match vs with
    | [] => exact h
    | v :: vs' =>
      exact ih vs' _ t (fun w hw => hvs w (List.mem_cons_of_mem _ hw))
        (get_cached_isSome_of_save env cache t u v (hvs v (List.mem_cons_self _ _)) h)

theorem deepseekBatches_cons (env : EmbEnv) (b : List String)
    (rest : List (List String)) (st : EmbState) (acc : List (Option (List ℚ))) :
    deepseekBatches env (b :: rest) st acc =
      if (partitionCached env st.cache b 0).2.1.isEmpty then
        deepseekBatches env rest st (acc ++ (partitionCached env st.cache b 0).1)
      else
        match deepseekCalls env (partitionCached env st.cache b 0).2.1 st [] with
        | (none, st') => (none, st')
        | (some apiEmbs, st') =>
          deepseekBatches env rest
            { st' with
                cache := saveZip env (partitionCached env st.cache b 0).2.1 apiEmbs st'.cache }
            (acc ++ mergeEmbeddings (partitionCached env st.cache b 0).2.2 apiEmbs
              (partitionCached env st.cache b 0).1) := rfl

theorem deepseekBatches_consults_cache (env : EmbEnv)
    (hdim : ∀ x, (env.dummyEmb x).length = EMBEDDING_VECTOR_SIZE) :
    ∀ (bs : List (List String)) (st : EmbState) (acc : List (Option (List ℚ)))
      (t : String),
      (get_cached_embedding env st.cache t).isSome = true →
      t ∉ st.deepseekLog →
      (get_cached_embedding env ((deepseekBatches env bs st acc).2).cache t).isSome
          = true ∧
        t ∉ ((deepseekBatches env bs st acc).2).deepseekLog := by
  intro bs
  induction bs with
  | nil => intro st acc t h hlog; exact ⟨h, hlog⟩
  | cons b rest ih =>
    intro st acc t h hlog
    have hnotin : t ∉ (partitionCached env st.cache b 0).2.1 := by
      intro hmem
      have h0 := partitionCached_miss env st.cache b 0 t hmem
      rw [h0] at h
      simp at h
    rw [deepseekBatches_cons]
    by_cases hemp : (partitionCached env st.cache b 0).2.1.isEmpty = true
    · rw [if_pos hemp]
      exact ih _ _ t h hlog
    · rw [if_neg hemp]
      rcases hc : deepseekCalls env (partitionCached env st.cache b 0).2.1 st []
        with ⟨res, st1⟩
      have hst1 : st1 = (deepseekCalls env (partitionCached env st.cache b 0).2.1 st []).2 := by
        rw [hc]
      have hcache1 : st1.cache = st.cache := by
        rw [hst1]
        exact deepseekCalls_cache env _ _ _
      have hlog1 : t ∉ st1.deepseekLog := by
        rw [hst1]
        exact deepseekCalls_log env _ _ _ t hlog hnotin
      cases res with
      | none =>
        refine ⟨?_, hlog1⟩
        show (get_cached_embedding env st1.cache t).isSome = true
        rw [hcache1]
        exact h
      | some apiEmbs =>
        have hv : ∀ v ∈ apiEmbs, v.length = EMBEDDING_VECTOR_SIZE := by
          refine deepseekCalls_out env hdim _ _ _ _ _ hc ?_
          intro v hv
          simp at hv
        have h2 : (get_cached_embedding env
            (saveZip env (partitionCached env st.cache b 0).2.1 apiEmbs st1.cache)
            t).isSome = true := by
          refine saveZip_preserves env _ _ _ t hv ?_
          rw [hcache1]
          exact h
        exact ih _ _ t h2 hlog1

theorem openaiLoop_dsLog (env : EmbEnv) :
    ∀ (bs : List (List String)) (st : EmbState) (acc : List (List ℚ)),
      ((openaiLoop env bs st acc).2).deepseekLog = st.deepseekLog := by
  intro bs
  induction bs with
  | nil => intro st acc; rfl
  | cons b rest ih =>
    intro st acc
    rcases ha : env.openaiApi b with _ | embs
    · simp only [openaiLoop, ha]
    · simp only [openaiLoop, ha]
      exact ih _ _

theorem generate_openai_dsLog (env : EmbEnv) (st : EmbState) (texts : List String) :
    ((generate_openai_embeddings env st texts).2).deepseekLog = st.deepseekLog := by
  unfold generate_openai_embeddings
  by_cases h : env.openaiKey = true
  · rw [if_pos h]
    exact openaiLoop_dsLog env _ _ _
  · rw [if_neg h]

theorem dummyPath_dsLog (env : EmbEnv) :
    ∀ (ts : List String) (st : EmbState) (acc : List (Option (List ℚ))),
      ((dummyPath env ts st acc).2).deepseekLog = st.deepseekLog := by
  intro ts
  induction ts with
  | nil => intro st acc; rfl
  | cons u rest ih =>
    intro st acc
    rcases hg : get_cached_embedding env st.cache u with _ | v <;>
      simp only [dummyPath, hg] <;> exact ih _ _

/-- C5 (amended): the cache is consulted per text before computing in
the DeepSeek path and in the dummy fallback path: a text with a valid
cache entry is never sent to the DeepSeek chat API and never recomputed
by the dummy fallback; and in the dummy path every input text has a
valid cache entry after the call.  Population is per text only in the
dummy path — the DeepSeek path saves per batch and the OpenAI path not
at all (counterexample `embedding_cache_not_per_text`). -/
theorem generate_embeddings_consults_cache_per_text (env : EmbEnv)
    (st : EmbState) (texts : List String)
    (hdim : ∀ x, (env.dummyEmb x).length = EMBEDDING_VECTOR_SIZE) :
    (∀ t, (get_cached_embedding env st.cache t).isSome = true →
      t ∉ st.deepseekLog →
      t ∉ (generate_embeddings env st texts).2.deepseekLog) ∧
    (env.deepseekKey = false → env.openaiKey = false →
      (∀ t, (get_cached_embedding env st.cache t).isSome = true →
        t ∉ st.dummyLog → t ∉ (generate_embeddings env st texts).2.dummyLog) ∧
      (∀ t ∈ texts, (get_cached_embedding env
        (generate_embeddings env st texts).2.cache t).isSome = true)) := by
  constructor
  · intro t h hlog
    unfold generate_embeddings
    by_cases hts : texts = []
    · rw [if_pos hts]
      exact hlog
    · rw [if_neg hts]
      by_cases hds : env.deepseekKey = false
      · rw [if_pos hds]
        split
        · next l st1 heq =>
          have hdl1 : st1.deepseekLog = st.deepseekLog := by
            rw [show st1 = (generate_openai_embeddings env st texts).2 from by
              rw [heq]]
            exact generate_openai_dsLog env st texts
          split
          · rw [dummyPath_dsLog env texts st1 [], hdl1]
            exact hlog
          · show t ∉ st1.deepseekLog
            rw [hdl1]
            exact hlog
        · next st1 heq =>
          have hdl1 : st1.deepseekLog = st.deepseekLog := by
            rw [show st1 = (generate_openai_embeddings env st texts).2 from by
              rw [heq]]
            exact generate_openai_dsLog env st texts
          rw [dummyPath_dsLog env texts st1 [], hdl1]
          exact hlog
      · rw [if_neg hds]
        split
        · next embs st1 heq =>
          have hmain := deepseekBatches_consults_cache env hdim (batches 5 texts)
            st [] t h hlog
          rw [heq] at hmain
          exact hmain.2
        · next st1 heq =>
          have hmain := deepseekBatches_consults_cache env hdim (batches 5 texts)
            st [] t h hlog
          rw [heq] at hmain
          split
          · next l st2 heq2 =>
            have hdl2 : st2.deepseekLog = st1.deepseekLog := by
              rw [show st2 = (generate_openai_embeddings env st1 texts).2 from by
                rw [heq2]]
              exact generate_openai_dsLog env st1 texts
            split
            · rw [dummyPath_dsLog env texts st2 [], hdl2]
              exact hmain.2
            · show t ∉ st2.deepseekLog
              rw [hdl2]
              exact hmain.2
          · next st2 heq2 =>
            have hdl2 : st2.deepseekLog = st1.deepseekLog := by
              rw [show st2 = (generate_openai_embeddings env st1 texts).2 from by
                rw [heq2]]
              exact generate_openai_dsLog env st1 texts
            rw [dummyPath_dsLog env texts st2 [], hdl2]
            exact hmain.2
  · intro hds hoa
    exact ⟨(generate_embeddings_dummy_cache_per_text env st texts hds hoa hdim).2,
      (generate_embeddings_dummy_cache_per_text env st texts hds hoa hdim).1⟩

/-- Witness for the amended C5: with no backend configured and an empty
cache, embedding the single text "x" records no DeepSeek call and no
recomputation for validly cached texts, and leaves "x" validly
cached. -/
theorem generate_embeddings_consults_cache_per_text_witness :
    (∀ t, (get_cached_embedding envDummy (⟨[], [], [], []⟩ : EmbState).cache t).isSome
        = true →
      t ∉ (⟨[], [], [], []⟩ : EmbState).deepseekLog →
      t ∉ (generate_embeddings envDummy ⟨[], [], [], []⟩ ["x"]).2.deepseekLog) ∧
    (envDummy.deepseekKey = false → envDummy.openaiKey = false →
      (∀ t, (get_cached_embedding envDummy (⟨[], [], [], []⟩ : EmbState).cache t).isSome
          = true →
        t ∉ (⟨[], [], [], []⟩ : EmbState).dummyLog →
        t ∉ (generate_embeddings envDummy ⟨[], [], [], []⟩ ["x"]).2.dummyLog) ∧
      (∀ t ∈ ["x"], (get_cached_embedding envDummy
        (generate_embeddings envDummy ⟨[], [], [], []⟩ ["x"]).2.cache t).isSome
          = true)) :=
  generate_embeddings_consults_cache_per_text envDummy ⟨[], [], [], []⟩ ["x"]
    (fun x => by simp [envDummy])

theorem get_cached_t1 : (get_cached_embedding envOA stT1.cache "t1").isSome = true := by
  unfold get_cached_embedding
  rw [show envOA.md5hex "t1" = "t1" from rfl]
  rw [show stT1.cache = cacheT1 from rfl]
  rw [show cacheLookup cacheT1 "t1" = some (List.replicate EMBEDDING_VECTOR_SIZE 0) from by
    unfold cacheT1 cacheLookup
    rw [if_pos rfl]]
  simp

theorem get_cached_t2 : get_cached_embedding envOA cacheT1 "t2" = none := by
  unfold get_cached_embedding
  rw [show envOA.md5hex "t2" = "t2" from rfl]
  rw [show cacheLookup cacheT1 "t2" = none from by
    unfold cacheT1 cacheLookup
    rw [if_neg (by decide)]
    rfl]

theorem oaApi_single (t : String) :
    envOA.openaiApi [t] = some [List.replicate EMBEDDING_VECTOR_SIZE 0] := rfl

theorem oaLoop_single (t : String) :
    openaiLoop envOA [[t]] stT1 [] =
      (some [List.replicate EMBEDDING_VECTOR_SIZE 0], ⟨cacheT1, [t], [], []⟩) := by
  simp only [openaiLoop, oaApi_single]
  rfl

theorem oaGen_single (t : String) :
    generate_openai_embeddings envOA stT1 [t] =
      (some [List.replicate EMBEDDING_VECTOR_SIZE 0], ⟨cacheT1, [t], [], []⟩) := by
  unfold generate_openai_embeddings
  rw [if_pos (show envOA.openaiKey = true from rfl),
    show batches 20 [t] = [[t]] from rfl]
  exact oaLoop_single t

theorem genOA_single (t : String) :
    generate_embeddings envOA stT1 [t] =
      ([some (List.replicate EMBEDDING_VECTOR_SIZE 0)], ⟨cacheT1, [t], [], []⟩) := by
  unfold generate_embeddings
  rw [if_neg (by simp), if_pos (show envOA.deepseekKey = false from rfl),
    oaGen_single t]
  simp

/-- The OpenAI backend path ignores the cache in both directions.
"t1" has a valid cache entry, yet embedding ["t1"] sends "t1" to the
backend; and after successfully embedding the uncached "t2", the cache
is unchanged and still holds nothing for "t2". -/
theorem openai_path_bypasses_cache :
    (get_cached_embedding envOA stT1.cache "t1").isSome = true ∧
    (generate_embeddings envOA stT1 ["t1"]).2.openaiLog = ["t1"] ∧
    (generate_embeddings envOA stT1 ["t2"]).2.cache = stT1.cache ∧
    get_cached_embedding envOA (generate_embeddings envOA stT1 ["t2"]).2.cache "t2"
      = none := by
  refine ⟨get_cached_t1, ?_, ?_, ?_⟩
  · rw [genOA_single "t1"]
  · rw [genOA_single "t2"]
    rfl
  · rw [genOA_single "t2"]
    exact get_cached_t2

/-- C5 counterexample: cache handling is not per text in every backend
path.  (a) The OpenAI path ignores the cache in both directions: "t1"
has a valid cache entry yet embedding ["t1"] sends "t1" to the backend,
and after successfully embedding the uncached "t2" the cache is
unchanged, still holding nothing for "t2".  (b) The DeepSeek path
populates per batch, not per text: with an empty cache, running the
batch ["a", "c"] where the call for "a" succeeds and the call for "c"
raises leaves the cache empty — the vector already computed for "a" is
discarded with the batch. -/
theorem embedding_cache_not_per_text :
    ((get_cached_embedding envOA stT1.cache "t1").isSome = true ∧
      (generate_embeddings envOA stT1 ["t1"]).2.openaiLog = ["t1"] ∧
      (generate_embeddings envOA stT1 ["t2"]).2.cache = stT1.cache ∧
      get_cached_embedding envOA
        (generate_embeddings envOA stT1 ["t2"]).2.cache "t2" = none) ∧
    envDS2.deepseekOk "a" = true ∧
    deepseekBatches envDS2 (batches 5 ["a", "c"]) ⟨[], [], [], []⟩ []
      = (none, ⟨[], [], ["a", "c"], []⟩) :=
  ⟨openai_path_bypasses_cache, rfl, by rfl⟩

theorem ds_get_a : get_cached_embedding envDS stB.cache "a" = none := by
  unfold get_cached_embedding
  rw [show envDS.md5hex "a" = "a" from rfl]
  rw [show cacheLookup stB.cache "a" = none from by
    unfold stB cacheB cacheLookup
    rw [if_neg (by decide)]
    rfl]

theorem ds_get_b : get_cached_embedding envDS stB.cache "b"
    = some (List.replicate EMBEDDING_VECTOR_SIZE 0) := by
  unfold get_cached_embedding
  rw [show envDS.md5hex "b" = "b" from rfl]
  rw [show cacheLookup stB.cache "b"
      = some (List.replicate EMBEDDING_VECTOR_SIZE 0) from by
    unfold stB cacheB cacheLookup
    rw [if_pos rfl]]
  simp

theorem ds_partition : partitionCached envDS stB.cache ["a", "b"] 0
    = ([some (List.replicate EMBEDDING_VECTOR_SIZE 0)], ["a"], [0]) := by
  simp only [partitionCached, ds_get_a, ds_get_b]

theorem ds_calls : deepseekCalls envDS ["a"] stB []
    = (some [[1]], ⟨cacheB, [], ["a"], []⟩) := by
  simp only [deepseekCalls, envDS]
  rfl

theorem ds_batches : deepseekBatches envDS (batches 5 ["a", "b"]) stB []
    = (some [some [1]],
        ⟨[("b", List.replicate EMBEDDING_VECTOR_SIZE 0), ("a", [1])], [], ["a"], []⟩) := by
  rw [show batches 5 ["a", "b"] = [["a", "b"]] from rfl]
  simp only [deepseekBatches, ds_partition]
  rw [if_neg (by decide)]
  rw [ds_calls]
  rfl

/-- C3: the DeepSeek path loses embeddings when a batch mixes cached and
uncached texts.  With "b" validly cached and "a" not, embedding
["a", "b"] partitions into one cached vector (appended at the compacted
position 0) and one API text at batch index 0; the merge then writes
the fresh vector for "a" over the cached vector for "b", returning one
embedding for two inputs — the output is not the same length as the
input, violating the length-and-order contract. -/
theorem generate_embeddings_drops_cached_entry :
    (generate_embeddings envDS stB ["a", "b"]).1 = [some [1]] ∧
    (generate_embeddings envDS stB ["a", "b"]).1.length ≠ ["a", "b"].length := by
  have h : (generate_embeddings envDS stB ["a", "b"]).1 = [some [1]] := by
    unfold generate_embeddings
    rw [if_neg (by simp), if_neg (by simp [envDS]), ds_batches]
  exact ⟨h, by rw [h]; decide⟩

theorem sumSq_nil : sumSq [] = 0 := rfl

theorem sumSq_cons (a : ℚ) (l : List ℚ) : sumSq (a :: l) = a * a + sumSq l := by
  simp [sumSq]

theorem sumSq_replicate_zero (n : ℕ) : sumSq (List.replicate n 0) = 0 := by
  induction n with
  | zero => rfl
  | succ k ih => simp [List.replicate, sumSq_cons, ih]

theorem sumSq_map_div (l : List ℚ) (c : ℚ) :
    sumSq (l.map (fun x => x / c)) = sumSq l / (c * c) := by
  induction l with
  | nil => simp [sumSq]
  | cons a t ih =>
    simp only [List.map_cons, sumSq_cons, ih]
    rw [div_mul_div_comm, div_add_div_same]

/-- C7: `generate_dummy_embedding` is a pure deterministic function of
its input text: the result vector is independent of the incoming global
RNG state (the call reseeds from the MD5 of the text, so the same text
gives the same vector in any run), it has exactly the configured
dimension 1536, and whenever the drawn vector is nonzero and the square
root is exact at its sum of squares, the normalised vector's squared L2
norm is exactly 1 (the floating-point "norm ≈ 1" modelled over exact
arithmetic). -/
theorem generate_dummy_embedding_pure (env : RngEnv) (text : String) (gA gB : ℕ)
    (hdraw : (rawDraw env text EMBEDDING_VECTOR_SIZE).length = EMBEDDING_VECTOR_SIZE) :
    ((generate_dummy_embedding env text EMBEDDING_VECTOR_SIZE gA).1
      = (generate_dummy_embedding env text EMBEDDING_VECTOR_SIZE gB).1) ∧
    (generate_dummy_embedding env text EMBEDDING_VECTOR_SIZE gA).1.length
      = EMBEDDING_VECTOR_SIZE ∧
    (0 < sumSq (rawDraw env text EMBEDDING_VECTOR_SIZE) →
      0 ≤ env.sqrtFn (sumSq (rawDraw env text EMBEDDING_VECTOR_SIZE)) →
      env.sqrtFn (sumSq (rawDraw env text EMBEDDING_VECTOR_SIZE)) *
          env.sqrtFn (sumSq (rawDraw env text EMBEDDING_VECTOR_SIZE))
        = sumSq (rawDraw env text EMBEDDING_VECTOR_SIZE) →
      sumSq (generate_dummy_embedding env text EMBEDDING_VECTOR_SIZE gA).1 = 1) := by
  refine ⟨rfl, ?_, ?_⟩
  · unfold generate_dummy_embedding
    by_cases h : 0 < env.sqrtFn (sumSq (rawDraw env text EMBEDDING_VECTOR_SIZE)) <;>
      simp [h, hdraw]
  · intro hpos hnn hsq
    unfold generate_dummy_embedding
    have hν0 : 0 < env.sqrtFn (sumSq (rawDraw env text EMBEDDING_VECTOR_SIZE)) := by
      rcases lt_or_eq_of_le hnn with h | h
      · exact h
      · rw [← h] at hsq
        rw [mul_zero] at hsq
        rw [← hsq] at hpos
        exact absurd hpos (by simp)
    rw [if_pos hν0]
    show sumSq ((rawDraw env text EMBEDDING_VECTOR_SIZE).map
      (fun x => x / env.sqrtFn (sumSq (rawDraw env text EMBEDDING_VECTOR_SIZE)))) = 1
    rw [sumSq_map_div, hsq]
    exact div_self (ne_of_gt hpos)

/-- Witness for C7: with the concrete RNG drawing (1, 0, ..., 0), both
incoming states 0 and 1 give the same vector, its length is 1536, and
its squared norm is exactly 1. -/
theorem generate_dummy_embedding_pure_witness :
    ((generate_dummy_embedding envRng "x" EMBEDDING_VECTOR_SIZE 0).1
      = (generate_dummy_embedding envRng "x" EMBEDDING_VECTOR_SIZE 1).1) ∧
    (generate_dummy_embedding envRng "x" EMBEDDING_VECTOR_SIZE 0).1.length
      = EMBEDDING_VECTOR_SIZE ∧
    sumSq (generate_dummy_embedding envRng "x" EMBEDDING_VECTOR_SIZE 0).1 = 1 := by
  have hraw : rawDraw envRng "x" EMBEDDING_VECTOR_SIZE
      = 1 :: List.replicate (EMBEDDING_VECTOR_SIZE - 1) 0 := rfl
  have hdraw : (rawDraw envRng "x" EMBEDDING_VECTOR_SIZE).length
      = EMBEDDING_VECTOR_SIZE := by
    rw [hraw, List.length_cons, List.length_replicate]
    decide
  have hsum : sumSq (rawDraw envRng "x" EMBEDDING_VECTOR_SIZE) = 1 := by
    rw [hraw, sumSq_cons, sumSq_replicate_zero]
    norm_num
  have hid : envRng.sqrtFn (sumSq (rawDraw envRng "x" EMBEDDING_VECTOR_SIZE))
      = sumSq (rawDraw envRng "x" EMBEDDING_VECTOR_SIZE) := rfl
  have h := generate_dummy_embedding_pure envRng "x" 0 1 hdraw
  exact ⟨h.1, h.2.1,
    h.2.2 (by rw [hsum]; norm_num) (by rw [hid, hsum]; norm_num)
      (by rw [hid, hsum]; norm_num)⟩

end YTLLM
